import Mathlib

/-!
Verification of the text-decoration rendering engine
(`crates/typst-library/src/text/deco.rs`).

The embedding models absolute lengths (`Abs`), em values and raw coordinates
as rationals.  Style resolution (`.resolve(styles)`) of an em value is
multiplication by the run's font size; the font's `to_em` conversion of a
font-unit value is division by `units_per_em`.  The output `Frame` is a list
of positioned shapes; `push` appends at the back and `prepend` inserts at
the front, exactly as in the frame data structure the source writes into.
-/

namespace TypstDeco

/-- A 2-dimensional point / vector (`Point` in the source). -/
structure Point where
  x : ℚ
  y : ℚ
deriving DecidableEq, Repr

/-- Paints are never inspected by the decoration code; an abstract identifier. -/
abbrev Paint := ℕ

/-- The stroke data the decoration code manipulates: the paint and the
thickness.  The remaining stroke fields (`Stroke::default()`) are never
inspected by `decorate` and are omitted. -/
structure Stroke where
  paint : Paint
  thickness : ℚ
deriving DecidableEq, Repr

/-- A geometry together with its fill or stroke, as pushed into the frame:
`Geometry::Line(target).stroked(stroke)` or
`Geometry::Rect(size).filled(fill)`. -/
inductive Shape
  | strokedLine (target : Point) (stroke : Stroke)
  | filledRect (size : Point) (fill : Paint)
deriving DecidableEq, Repr

/-- A positioned frame item (`FrameItem::Shape` with its origin). -/
structure FrameItem where
  origin : Point
  shape : Shape
deriving DecidableEq, Repr

/-- The output canvas: an ordered list of positioned shapes. -/
abbrev Frame := List FrameItem

/-- Rust `Frame::push`: append an item at the back (drawn in front). -/
def Frame.push (f : Frame) (origin : Point) (s : Shape) : Frame :=
  f ++ [⟨origin, s⟩]

/-- Rust `Frame::prepend`: insert an item at the front (drawn behind). -/
def Frame.prepend (f : Frame) (origin : Point) (s : Shape) : Frame :=
  ⟨origin, s⟩ :: f

/-- The x-coordinate where a frame item starts. -/
def FrameItem.xStart (it : FrameItem) : ℚ := it.origin.x

/-- The x-coordinate where a frame item ends (origin plus the shape's
horizontal size). -/
def FrameItem.xEnd (it : FrameItem) : ℚ :=
  it.origin.x +
    match it.shape with
    | .strokedLine t _ => t.x
    | .filledRect s _ => s.x

/-- A glyph bounding box as reported by the ttf backend (font units). -/
structure BBox where
  yMin : ℚ
  yMax : ℚ
deriving DecidableEq, Repr

/-- One curve segment of a glyph outline (`kurbo::PathSeg`): a line,
a quadratic Bezier or a cubic Bezier. -/
inductive PathSeg
  | line (p0 p1 : Point)
  | quad (p0 p1 p2 : Point)
  | cubic (p0 p1 p2 p3 : Point)
deriving DecidableEq, Repr

/-- The control points of a path segment. -/
def PathSeg.controlPoints : PathSeg → List Point
  | .line p0 p1 => [p0, p1]
  | .quad p0 p1 p2 => [p0, p1, p2]
  | .cubic p0 p1 p2 p3 => [p0, p1, p2, p3]

/-- Apply a point transformation to every control point. -/
def PathSeg.transform (f : Point → Point) : PathSeg → PathSeg
  | .line p0 p1 => .line (f p0) (f p1)
  | .quad p0 p1 p2 => .quad (f p0) (f p1) (f p2)
  | .cubic p0 p1 p2 p3 => .cubic (f p0) (f p1) (f p2) (f p3)

/-- A glyph of the shaped run.  `xAdvance` and `xOffset` are em values
(resolved by multiplying with the font size); `bbox` is the bounding box the
ttf backend reports for the glyph (`None` for glyphs without an outline,
e.g. spaces); `outline` is the glyph's outline in font units, as the
outline visitor receives it. -/
structure Glyph where
  id : ℕ
  xAdvance : ℚ
  xOffset : ℚ
  bbox : Option BBox
  outline : List PathSeg
deriving DecidableEq, Repr

/-- Per-decoration font metrics (`LineMetrics`): nominal position and
thickness, in em values. -/
structure LineMetrics where
  position : ℚ
  thickness : ℚ
deriving DecidableEq, Repr

/-- The font metrics `decorate` reads. -/
structure FontMetrics where
  unitsPerEm : ℚ
  underline : LineMetrics
  strikethrough : LineMetrics
  overline : LineMetrics
deriving DecidableEq, Repr

/-- A run of shaped text (`TextItem`).  `width` is the run's layout width,
an input from the shaping pipeline (the source derives it from the glyph
advances outside this file). -/
structure TextItem where
  size : ℚ
  fill : Paint
  metrics : FontMetrics
  glyphs : List Glyph
  width : ℚ
deriving DecidableEq, Repr

/-- A kind of decorative line (`DecoLine`).  Stroke and offset overrides are
`Smart` values, modelled as `Option` (`auto` = `none`).  The highlight's
top/bottom edge specifications are consumed without inspection by the source
(`top_edge.resolve(styles, font, None)`); they are modelled as the already
resolved lengths. -/
inductive DecoLine
  | underline (stroke : Option Stroke) (offset : Option ℚ) (evade : Bool)
  | strikethrough (stroke : Option Stroke) (offset : Option ℚ)
  | overline (stroke : Option Stroke) (offset : Option ℚ) (evade : Bool)
  | highlight (fill : Paint) (topEdge : ℚ) (bottomEdge : ℚ)
deriving DecidableEq, Repr

/-- A decoration descriptor (`Decoration`). -/
structure Decoration where
  line : DecoLine
  extent : ℚ
deriving DecidableEq, Repr

/-- Rust `impl Fold for Decoration`: `outer.insert(0, self); outer`. -/
def Decoration.fold (d : Decoration) (outer : List Decoration) : List Decoration :=
  outer.insertIdx 0 d

/-- The inner `get_top_bottom` of `decorate`: starting from the resolved
top/bottom edges, widen by every bounded glyph's scaled `y_max`/`y_min`
(`text.font.to_em(bb.y_max).resolve(styles)` = `y_max / units_per_em * size`). -/
def get_top_bottom (text : TextItem) (topEdge bottomEdge : ℚ) : ℚ × ℚ :=
  text.glyphs.foldl
    (fun tb g =>
      match g.bbox with
      | some bb =>
          (max tb.1 (bb.yMax / text.metrics.unitsPerEm * text.size),
           min tb.2 (bb.yMin / text.metrics.unitsPerEm * text.size))
      | none => tb)
    (topEdge, bottomEdge)

/-- The `push_segment` closure of `decorate`: draw a stroked line from `a`
to `b` at height `pos.y + offY`, unless evading and the segment is shorter
than `minWidth` (`if target.x >= min_width || !evade`). -/
def push_segment (pos : Point) (offY minWidth : ℚ) (evade : Bool) (stroke : Stroke)
    (frame : Frame) (a b : ℚ) : Frame :=
  let origin : Point := ⟨a, pos.y + offY⟩
  let target : Point := ⟨b - a, 0⟩
  if minWidth ≤ target.x ∨ evade = false then
    frame.push origin (.strokedLine target stroke)
  else frame

/-- The `for edge in intersections.windows(2)` loop of `decorate`: for every
adjacent pair `(l, r)` of the sorted point list, skip it when
`r - l < gap_padding`, else hand `(l + gap_padding, r - gap_padding)` to
`push_segment`. -/
def emitSegments (pos : Point) (offY minWidth gapPadding : ℚ) (evade : Bool)
    (stroke : Stroke) : Frame → List ℚ → Frame
  | frame, l :: r :: rest =>
      let frame' :=
        if r - l < gapPadding then frame
        else push_segment pos offY minWidth evade stroke frame
          (l + gapPadding) (r - gapPadding)
      emitSegments pos offY minWidth gapPadding evade stroke frame' (r :: rest)
  | frame, _ => frame

/-- The body of `decorate` shared by underline, overline and strikethrough,
i.e. everything after the `match` on the decoration kind.  The collision
scanner's output (the x-coordinates kurbo's curve/line intersection yields
for the run's glyph outlines) is taken as the input list `intersections0`;
its mathematical semantics is modelled separately by `collisionScan` below,
since the source computes it by floating-point root finding. -/
def decorateLine (frame : Frame) (extent : ℚ) (text : TextItem) (shift : ℚ)
    (pos : Point) (intersections0 : List ℚ) (stroke0 : Option Stroke)
    (metrics : LineMetrics) (offset0 : Option ℚ) (evade : Bool) : Frame :=
  let offY := offset0.getD (-(metrics.position * text.size)) - shift
  let stroke := stroke0.getD ⟨text.fill, metrics.thickness * text.size⟩
  let gap_padding := 8 / 100 * text.size
  let min_width := 162 / 1000 * text.size
  let lineStart := pos.x - extent
  let lineEnd := pos.x + (text.width + 2 * extent)
  if evade = false then
    push_segment pos offY min_width evade stroke frame lineStart lineEnd
  else
    let intersections :=
      intersections0 ++ [lineStart - gap_padding, lineEnd + gap_padding]
    let pts := intersections.mergeSort (fun a b => decide (a ≤ b))
    emitSegments pos offY min_width gap_padding evade stroke frame pts

/-- Function `decorate`: add one decoration to the frame of a single shaped run.
For highlights, prepend the background rectangle computed from
`get_top_bottom`; for the line decorations, dispatch to `decorateLine`
with the respective font metrics and evade flag. -/
def decorate (frame : Frame) (deco : Decoration) (text : TextItem)
    (shift : ℚ) (pos : Point) (intersections0 : List ℚ) : Frame :=
  let width := text.width
  match deco.line with
  | .highlight fill topEdge bottomEdge =>
      let tb := get_top_bottom text topEdge bottomEdge
      let bg := Shape.filledRect ⟨width + 2 * deco.extent, tb.1 - tb.2⟩ fill
      let offY := (-tb.1) - shift
      let origin : Point := ⟨pos.x - deco.extent, pos.y + offY⟩
      frame.prepend origin bg
  | .strikethrough s o =>
      decorateLine frame deco.extent text shift pos intersections0 s
        text.metrics.strikethrough o false
  | .overline s o e =>
      decorateLine frame deco.extent text shift pos intersections0 s
        text.metrics.overline o e
  | .underline s o e =>
      decorateLine frame deco.extent text shift pos intersections0 s
        text.metrics.underline o e

/-- Bernstein evaluation of a path segment's x-coordinate at parameter `t`. -/
def PathSeg.evalX : PathSeg → ℝ → ℝ
  | .line p0 p1, t => (1 - t) * p0.x + t * p1.x
  | .quad p0 p1 p2, t =>
      (1 - t) ^ 2 * p0.x + 2 * t * (1 - t) * p1.x + t ^ 2 * p2.x
  | .cubic p0 p1 p2 p3, t =>
      (1 - t) ^ 3 * p0.x + 3 * t * (1 - t) ^ 2 * p1.x
        + 3 * t ^ 2 * (1 - t) * p2.x + t ^ 3 * p3.x

/-- Bernstein evaluation of a path segment's y-coordinate at parameter `t`. -/
def PathSeg.evalY : PathSeg → ℝ → ℝ
  | .line p0 p1, t => (1 - t) * p0.y + t * p1.y
  | .quad p0 p1 p2, t =>
      (1 - t) ^ 2 * p0.y + 2 * t * (1 - t) * p1.y + t ^ 2 * p2.y
  | .cubic p0 p1 p2 p3, t =>
      (1 - t) ^ 3 * p0.y + 3 * t * (1 - t) ^ 2 * p1.y
        + 3 * t ^ 2 * (1 - t) * p2.y + t ^ 3 * p3.y

/-- The coordinate transform of `BezPathBuilder`: scale font units to
document units (`Em::from_units(v, units_per_em).at(font_size)`), shift x
by the glyph position `dx` and flip y. -/
def builderPoint (upem size dx : ℚ) (p : Point) : Point :=
  ⟨p.x / upem * size + dx, -(p.y / upem * size)⟩

/-- The x-coordinates at which one (transformed) path segment meets the
decoration line: curve points with `y = lineY` whose x lies within the
line's span `[x0, x1]` (kurbo's `intersect_line` keeps only intersections
with the line parameter in `[0, 1]`). -/
def segLineHits (sg : PathSeg) (lineY x0 x1 : ℚ) : Set ℝ :=
  {x | ∃ t : ℝ, 0 ≤ t ∧ t ≤ 1 ∧ sg.evalY t = (lineY : ℝ) ∧ sg.evalX t = x ∧
    (x0 : ℝ) ≤ x ∧ x ≤ (x1 : ℝ)}

/-- All collision x-coordinates one glyph contributes: the union of the
hits of its outline segments, after the builder transform at position `dx`. -/
def glyphHits (upem size dx lineY x0 x1 : ℚ) (g : Glyph) : Set ℝ :=
  {x | ∃ sg ∈ g.outline,
    x ∈ segLineHits (sg.transform (builderPoint upem size dx)) lineY x0 x1}

/-- The cheap rejection test of the scanner: the glyph has a bounding box
and the decoration offset falls within the box's document-unit y-range
(`y_min = -to_em(bbox.y_max).resolve(styles)` etc.). -/
def bboxIntersects (upem size offY : ℚ) (g : Glyph) : Bool :=
  match g.bbox with
  | none => false
  | some bb =>
      decide (-(bb.yMax / upem * size) ≤ offY) &&
      decide (offY ≤ -(bb.yMin / upem * size))

/-- The collision scanner of `decorate`'s evading branch: walk the glyphs
left to right with the running cursor `x`, placing each glyph at
`dx = x_offset * size + x` and advancing by `x_advance * size`.  With
`cheap = true` a glyph's hits are only collected when `bboxIntersects`
holds (the source's `if intersect` guard); with `cheap = false` every
glyph's full outline is intersected (the reference semantics the spec
compares against). -/
def collisionScan (cheap : Bool) (text : TextItem) (offY posX : ℚ) :
    ℚ → List Glyph → Set ℝ
  | _, [] => ∅
  | x, g :: gs =>
      let dx := g.xOffset * text.size + x
      let hits := glyphHits text.metrics.unitsPerEm text.size dx offY posX
        (posX + text.width) g
      let contrib :=
        if cheap then
          if bboxIntersects text.metrics.unitsPerEm text.size offY g then hits
          else (∅ : Set ℝ)
        else hits
      contrib ∪
        collisionScan cheap text offY posX (x + g.xAdvance * text.size) gs

/-- The bounding box a glyph carries really bounds its outline: a glyph
without a box has no outline, and a glyph with a box has all outline
control points within the box's y-range.  This is what the ttf backend
guarantees (it computes the box from the outline's points). -/
def Glyph.bboxSoundB (g : Glyph) : Bool :=
  match g.bbox with
  | none => g.outline.isEmpty
  | some bb =>
      g.outline.all fun sg =>
        sg.controlPoints.all fun p =>
          decide (bb.yMin ≤ p.y) && decide (p.y ≤ bb.yMax)

/-- The adjacent pairs of a list (`windows(2)`). -/
def windowPairs : List ℚ → List (ℚ × ℚ)
  | l :: r :: rest => (l, r) :: windowPairs (r :: rest)
  | _ => []

/-- Modelled from the spec's words (§4.5 Segment Assembler): append the two
sentinel points, sort ascending, and turn every adjacent pair `(l, r)` with
`r - l ≥ gap_padding` into the candidate segment
`(l + gap_padding, r - gap_padding)`, discarding the others. -/
def assembledSegments (collisions : List ℚ) (runStart runEnd gapPadding : ℚ) :
    List (ℚ × ℚ) :=
  let pts := (collisions ++ [runStart - gapPadding, runEnd + gapPadding]).mergeSort
    (fun a b => decide (a ≤ b))
  ((windowPairs pts).filter fun p => decide (gapPadding ≤ p.2 - p.1)).map
    fun p => (p.1 + gapPadding, p.2 - gapPadding)

/-- The frame item a drawn segment `(a, b)` produces. -/
def segItem (pos : Point) (offY : ℚ) (strk : Stroke) (p : ℚ × ℚ) : FrameItem :=
  ⟨⟨p.1, pos.y + offY⟩, .strokedLine ⟨p.2 - p.1, 0⟩ strk⟩

theorem emitSegments_eq (pos : Point) (offY minW g : ℚ) (ev : Bool) (strk : Stroke) :
    ∀ (pts : List ℚ) (frame : Frame),
      emitSegments pos offY minW g ev strk frame pts
        = (((windowPairs pts).filter fun p => decide (g ≤ p.2 - p.1)).map
            fun p => (p.1 + g, p.2 - g)).foldl
            (fun fr p => push_segment pos offY minW ev strk fr p.1 p.2) frame
  | [], _ => rfl
  | [_], _ => rfl
  | l :: r :: rest, frame => by
      by_cases h : r - l < g
      · have hd : decide (g ≤ r - l) = false := by
          simp [not_le.mpr h]
        simp only [emitSegments, windowPairs, List.filter_cons, hd, if_pos h,
          Bool.false_eq_true, if_false]
        exact emitSegments_eq pos offY minW g ev strk (r :: rest) frame
      · have hd : decide (g ≤ r - l) = true := by
          simp [not_lt.mp h]
        simp only [emitSegments, windowPairs, List.filter_cons, hd, if_neg h,
          if_true, List.map_cons, List.foldl_cons]
        exact emitSegments_eq pos offY minW g ev strk (r :: rest) _

theorem foldl_push_eq (pos : Point) (offY minW : ℚ) (ev : Bool) (strk : Stroke) :
    ∀ (pairs : List (ℚ × ℚ)) (frame : Frame),
      pairs.foldl (fun fr p => push_segment pos offY minW ev strk fr p.1 p.2) frame
        = frame ++
          ((pairs.filter fun p => decide (minW ≤ p.2 - p.1 ∨ ev = false)).map
            (segItem pos offY strk))
  | [], frame => by simp
  | p :: ps, frame => by
      rw [List.foldl_cons, foldl_push_eq pos offY minW ev strk ps]
      by_cases h : minW ≤ p.2 - p.1 ∨ ev = false
      · have hp : push_segment pos offY minW ev strk frame p.1 p.2
            = frame ++ [segItem pos offY strk p] := by
          simp only [push_segment, Frame.push, if_pos h]
          rfl
        rw [hp]
        simp [List.filter_cons, h, List.append_assoc]
      · have hp : push_segment pos offY minW ev strk frame p.1 p.2 = frame := by
          simp only [push_segment, if_neg h]
        rw [hp]
        simp [List.filter_cons, h]

theorem mem_windowPairs : ∀ {pts : List ℚ} {p : ℚ × ℚ},
    p ∈ windowPairs pts → p.1 ∈ pts ∧ p.2 ∈ pts
  | l :: r :: rest, p, hp => by
      rcases List.mem_cons.mp hp with h | h
      · subst h
        exact ⟨List.mem_cons_self _ _, List.mem_cons_of_mem _ (List.mem_cons_self _ _)⟩
      · have := mem_windowPairs h
        exact ⟨List.mem_cons_of_mem _ this.1, List.mem_cons_of_mem _ this.2⟩

theorem pairwise_windowPairs : ∀ {pts : List ℚ},
    pts.Pairwise (fun a b : ℚ => a ≤ b) →
      (windowPairs pts).Pairwise (fun p q : ℚ × ℚ => p.2 ≤ q.1)
  | [], _ => List.Pairwise.nil
  | [_], _ => List.Pairwise.nil
  | l :: r :: rest, h => by
      have htail : (r :: rest).Pairwise (fun a b : ℚ => a ≤ b) := h.of_cons
      refine List.Pairwise.cons ?_ (pairwise_windowPairs htail)
      intro q hq
      have hq1 : q.1 ∈ r :: rest := (mem_windowPairs hq).1
      rcases List.mem_cons.mp hq1 with h1 | h1
      · exact h1 ▸ le_refl _
      · exact List.rel_of_pairwise_cons htail h1

theorem sorted_ratSort (xs : List ℚ) :
    (xs.mergeSort (fun a b => decide (a ≤ b))).Pairwise (fun a b : ℚ => a ≤ b) := by
  have htrans : ∀ (a b c : ℚ),
      decide (a ≤ b) = true → decide (b ≤ c) = true → decide (a ≤ c) = true := by
    intro a b c hab hbc
    exact decide_eq_true (le_trans (of_decide_eq_true hab) (of_decide_eq_true hbc))
  have htotal : ∀ (a b : ℚ), (decide (a ≤ b) || decide (b ≤ a)) = true := by
    intro a b
    rcases le_total a b with h | h
    · simp [h]
    · simp [h]
  have h := List.sorted_mergeSort htrans htotal xs
  exact h.imp (fun hab => of_decide_eq_true hab)

theorem get_top_bottom_cons (text : TextItem) (g : Glyph) (gs : List Glyph)
    (tE bE : ℚ) :
    get_top_bottom {text with glyphs := g :: gs} tE bE
      = get_top_bottom {text with glyphs := gs}
          (match g.bbox with
           | some bb => max tE (bb.yMax / text.metrics.unitsPerEm * text.size)
           | none => tE)
          (match g.bbox with
           | some bb => min bE (bb.yMin / text.metrics.unitsPerEm * text.size)
           | none => bE) := by
  rcases hb : g.bbox with _ | bb <;>
    simp only [get_top_bottom, List.foldl_cons, hb]

theorem get_top_bottom_bounds_aux (text : TextItem) :
    ∀ (gs : List Glyph) (tE bE : ℚ),
      tE ≤ (get_top_bottom {text with glyphs := gs} tE bE).1 ∧
      (get_top_bottom {text with glyphs := gs} tE bE).2 ≤ bE
  | [], _, _ => ⟨le_refl _, le_refl _⟩
  | g :: gs, tE, bE => by
      rw [get_top_bottom_cons]
      rcases hb : g.bbox with _ | bb
      · simpa using get_top_bottom_bounds_aux text gs tE bE
      · have ih := get_top_bottom_bounds_aux text gs
          (max tE (bb.yMax / text.metrics.unitsPerEm * text.size))
          (min bE (bb.yMin / text.metrics.unitsPerEm * text.size))
        exact ⟨le_trans (le_max_left _ _) ih.1, le_trans ih.2 (min_le_left _ _)⟩

theorem get_top_bottom_mem_aux (text : TextItem) :
    ∀ (gs : List Glyph) (tE bE : ℚ) (g : Glyph) (bb : BBox),
      g ∈ gs → g.bbox = some bb →
      bb.yMax / text.metrics.unitsPerEm * text.size
          ≤ (get_top_bottom {text with glyphs := gs} tE bE).1 ∧
      (get_top_bottom {text with glyphs := gs} tE bE).2
          ≤ bb.yMin / text.metrics.unitsPerEm * text.size
  | g' :: gs, tE, bE, g, bb, hmem, hbb => by
      rw [get_top_bottom_cons]
      rcases List.mem_cons.mp hmem with h | h
      · subst h
        simp only [hbb]
        have hbd := get_top_bottom_bounds_aux text gs
          (max tE (bb.yMax / text.metrics.unitsPerEm * text.size))
          (min bE (bb.yMin / text.metrics.unitsPerEm * text.size))
        exact ⟨le_trans (le_max_right _ _) hbd.1, le_trans hbd.2 (min_le_right _ _)⟩
      · rcases hb' : g'.bbox with _ | bb'
        · exact get_top_bottom_mem_aux text gs _ _ g bb h hbb
        · exact get_top_bottom_mem_aux text gs _ _ g bb h hbb

theorem get_top_bottom_filter_aux (text : TextItem) :
    ∀ (gs : List Glyph) (tE bE : ℚ),
      get_top_bottom {text with glyphs := gs} tE bE
        = get_top_bottom
            {text with glyphs := gs.filter fun g => g.bbox.isSome} tE bE
  | [], _, _ => rfl
  | g :: gs, tE, bE => by
      rcases hb : g.bbox with _ | bb
      · have hfalse : g.bbox.isSome = false := by rw [hb]; rfl
        rw [get_top_bottom_cons, List.filter_cons, hfalse]
        simpa [hb] using get_top_bottom_filter_aux text gs tE bE
      · have htrue : g.bbox.isSome = true := by rw [hb]; rfl
        rw [get_top_bottom_cons, List.filter_cons, htrue]
        simp only [if_true]
        rw [get_top_bottom_cons, hb]
        exact get_top_bottom_filter_aux text gs _ _

/-- C10: folding a `Decoration` onto an existing vector of collected
decorations inserts it at index 0, leaves the previously collected
decorations unchanged in their original relative order (every old index
`i` moves to `i + 1`), and the length grows by exactly one. -/
theorem C10_fold_prepends (d : Decoration) (outer : List Decoration) :
    Decoration.fold d outer = d :: outer ∧
    (Decoration.fold d outer).length = outer.length + 1 ∧
    ∀ i : ℕ, (Decoration.fold d outer)[i + 1]? = outer[i]? := by
  have h : Decoration.fold d outer = d :: outer := List.insertIdx_zero outer d
  refine ⟨h, ?_, ?_⟩
  · rw [h]
    simp
  · intro i
    rw [h]
    simp

/-- C8: the highlight rectangle's top is at least the resolved top edge and
at least every bounded glyph's maximum y-extent (converted from font units
at the run's size); its bottom is at most the resolved bottom edge and at
most every bounded glyph's minimum y-extent; glyphs without a bounding box
leave both edges unchanged. -/
theorem C8_highlight_coverage (text : TextItem) (tE bE : ℚ) :
    tE ≤ (get_top_bottom text tE bE).1 ∧
    (get_top_bottom text tE bE).2 ≤ bE ∧
    (∀ g ∈ text.glyphs, ∀ bb : BBox, g.bbox = some bb →
      bb.yMax / text.metrics.unitsPerEm * text.size
          ≤ (get_top_bottom text tE bE).1 ∧
      (get_top_bottom text tE bE).2
          ≤ bb.yMin / text.metrics.unitsPerEm * text.size) ∧
    get_top_bottom text tE bE
      = get_top_bottom
          {text with glyphs := text.glyphs.filter fun g => g.bbox.isSome} tE bE := by
  refine ⟨(get_top_bottom_bounds_aux text text.glyphs tE bE).1,
          (get_top_bottom_bounds_aux text text.glyphs tE bE).2, ?_, ?_⟩
  · intro g hg bb hbb
    exact get_top_bottom_mem_aux text text.glyphs tE bE g bb hg hbb
  · exact get_top_bottom_filter_aux text text.glyphs tE bE

/-- A concrete run for the C8 witness: one glyph with a tall bounding box
and one glyph without a box, at 1000 units per em and font size 1000. -/
def textC8 : TextItem :=
  ⟨1000, 0, ⟨1000, ⟨0, 0⟩, ⟨0, 0⟩, ⟨0, 0⟩⟩,
    [⟨7, 1, 0, some ⟨-200, 700⟩, []⟩, ⟨3, 1, 0, none, []⟩], 2000⟩

theorem C8_highlight_coverage_witness :
    (⟨7, 1, 0, some ⟨-200, 700⟩, []⟩ : Glyph) ∈ textC8.glyphs ∧
    (700 : ℚ) / 1000 * 1000 ≤ (get_top_bottom textC8 500 (-100)).1 ∧
    (get_top_bottom textC8 500 (-100)).2 ≤ (-200 : ℚ) / 1000 * 1000 :=
  ⟨by decide,
    ((C8_highlight_coverage textC8 500 (-100)).2.2.1
      ⟨7, 1, 0, some ⟨-200, 700⟩, []⟩ (by decide) ⟨-200, 700⟩ rfl).1,
    ((C8_highlight_coverage textC8 500 (-100)).2.2.1
      ⟨7, 1, 0, some ⟨-200, 700⟩, []⟩ (by decide) ⟨-200, 700⟩ rfl).2⟩

theorem decorateLine_nonevade (frame : Frame) (ext : ℚ) (text : TextItem)
    (shift : ℚ) (pos : Point) (cols : List ℚ) (s : Option Stroke)
    (m : LineMetrics) (o : Option ℚ) :
    decorateLine frame ext text shift pos cols s m o false
      = frame ++ [⟨⟨pos.x - ext,
          pos.y + (o.getD (-(m.position * text.size)) - shift)⟩,
          .strokedLine ⟨(pos.x + (text.width + 2 * ext)) - (pos.x - ext), 0⟩
            (s.getD ⟨text.fill, m.thickness * text.size⟩)⟩] := by
  simp [decorateLine, push_segment, Frame.push]

theorem decorateLine_evade (frame : Frame) (ext : ℚ) (text : TextItem)
    (shift : ℚ) (pos : Point) (cols : List ℚ) (s : Option Stroke)
    (m : LineMetrics) (o : Option ℚ) :
    decorateLine frame ext text shift pos cols s m o true
      = frame ++
        ((assembledSegments cols (pos.x - ext) (pos.x + (text.width + 2 * ext))
            (8 / 100 * text.size)).filter
          (fun p => decide (162 / 1000 * text.size ≤ p.2 - p.1))).map
          (segItem pos (o.getD (-(m.position * text.size)) - shift)
            (s.getD ⟨text.fill, m.thickness * text.size⟩)) := by
  have hbr : decorateLine frame ext text shift pos cols s m o true
      = emitSegments pos (o.getD (-(m.position * text.size)) - shift)
          (162 / 1000 * text.size) (8 / 100 * text.size) true
          (s.getD ⟨text.fill, m.thickness * text.size⟩) frame
          ((cols ++ [pos.x - ext - 8 / 100 * text.size,
            pos.x + (text.width + 2 * ext) + 8 / 100 * text.size]).mergeSort
            (fun a b => decide (a ≤ b))) := by
    simp only [decorateLine]
    rfl
  rw [hbr, emitSegments_eq, foldl_push_eq]
  congr 1
  have hfil : ∀ X : List (ℚ × ℚ),
      X.filter (fun p =>
        decide (162 / 1000 * text.size ≤ p.2 - p.1 ∨ (true : Bool) = false))
        = X.filter (fun p => decide (162 / 1000 * text.size ≤ p.2 - p.1)) := by
    intro X
    apply List.filter_congr
    intro p _
    simp
  rw [hfil]
  rfl

/-- C1 (amended: the code pads the right end of the run by `2 * extent`,
not `extent`): with evasion disabled, `decorate` appends exactly one
stroked segment to the frame, spanning horizontally from
`run_start - extent` to `run_end + 2 * extent`, regardless of the run's
glyph content (`run_start = pos.x`, `run_end = pos.x + width`). -/
theorem C1_nonevade_single_segment (frame : Frame) (s : Option Stroke)
    (o : Option ℚ) (ext : ℚ) (text : TextItem) (shift : ℚ) (pos : Point)
    (cols : List ℚ) :
    (decorate frame ⟨.underline s o false, ext⟩ text shift pos cols
      = frame ++ [⟨⟨pos.x - ext,
          pos.y + (o.getD (-(text.metrics.underline.position * text.size)) - shift)⟩,
          .strokedLine ⟨(pos.x + (text.width + 2 * ext)) - (pos.x - ext), 0⟩
            (s.getD ⟨text.fill, text.metrics.underline.thickness * text.size⟩)⟩]) ∧
    (decorate frame ⟨.overline s o false, ext⟩ text shift pos cols
      = frame ++ [⟨⟨pos.x - ext,
          pos.y + (o.getD (-(text.metrics.overline.position * text.size)) - shift)⟩,
          .strokedLine ⟨(pos.x + (text.width + 2 * ext)) - (pos.x - ext), 0⟩
            (s.getD ⟨text.fill, text.metrics.overline.thickness * text.size⟩)⟩]) :=
  ⟨decorateLine_nonevade frame ext text shift pos cols s text.metrics.underline o,
   decorateLine_nonevade frame ext text shift pos cols s text.metrics.overline o⟩

/-- A concrete run for the C1 counterexample: font size 1, empty glyph
list, layout width 1, all nominal line metrics zero. -/
def textC1 : TextItem := ⟨1, 0, ⟨1000, ⟨0, 0⟩, ⟨0, 0⟩, ⟨0, 0⟩⟩, [], 1⟩

/-- C1 as stated is false: with `pos = (0,0)`, `width = 1` and `extent = 1`
the single non-evading underline segment ends at `x = 3`, which is
`run_end + 2 * extent`, not `run_end + extent = 2`. -/
theorem C1_nonevade_counterexample :
    decorate [] ⟨.underline none none false, 1⟩ textC1 0 ⟨0, 0⟩ []
      = [⟨⟨-1, 0⟩, .strokedLine ⟨4, 0⟩ ⟨0, 0⟩⟩] ∧
    ¬ ((-1 : ℚ) + 4 = (0 + 1) + 1) := by
  constructor
  · show decorateLine [] 1 textC1 0 ⟨0, 0⟩ [] none textC1.metrics.underline none false
      = [⟨⟨-1, 0⟩, .strokedLine ⟨4, 0⟩ ⟨0, 0⟩⟩]
    rw [decorateLine_nonevade]
    norm_num [textC1]
  · norm_num

/-- C6: for a strikethrough, evasion never applies: `decorate` appends
exactly one stroked segment spanning the full padded run, regardless of
glyph content, with the font's strikethrough metrics supplying the default
offset and thickness. -/
theorem C6_strikethrough_single_segment (frame : Frame) (s : Option Stroke)
    (o : Option ℚ) (ext : ℚ) (text : TextItem) (shift : ℚ) (pos : Point)
    (cols : List ℚ) :
    decorate frame ⟨.strikethrough s o, ext⟩ text shift pos cols
      = frame ++ [⟨⟨pos.x - ext,
          pos.y + (o.getD (-(text.metrics.strikethrough.position * text.size)) - shift)⟩,
          .strokedLine ⟨(pos.x + (text.width + 2 * ext)) - (pos.x - ext), 0⟩
            (s.getD ⟨text.fill, text.metrics.strikethrough.thickness * text.size⟩)⟩] :=
  decorateLine_nonevade frame ext text shift pos cols s text.metrics.strikethrough o

/-- C4: a candidate segment handed to `push_segment` is drawn if and only
if evasion is disabled or its length is at least `0.162 * font_size`; in
particular, with evasion disabled it is always drawn, whatever its width. -/
theorem C4_draw_filter (pos : Point) (offY size : ℚ) (ev : Bool)
    (strk : Stroke) (frame : Frame) (a b : ℚ) :
    (push_segment pos offY (162 / 1000 * size) ev strk frame a b ≠ frame
      ↔ (ev = false ∨ 162 / 1000 * size ≤ b - a)) ∧
    (ev = false →
      push_segment pos offY (162 / 1000 * size) ev strk frame a b
        = frame.push ⟨a, pos.y + offY⟩ (.strokedLine ⟨b - a, 0⟩ strk)) := by
  constructor
  · constructor
    · intro hne
      by_cases hc : 162 / 1000 * size ≤ b - a ∨ ev = false
      · exact hc.symm
      · exfalso
        exact hne (by simp only [push_segment, if_neg hc])
    · intro h
      have hc : 162 / 1000 * size ≤ b - a ∨ ev = false := h.symm
      simp only [push_segment, if_pos hc, Frame.push]
      intro heq
      have hlen := congrArg List.length heq
      simp at hlen
  · intro hev
    simp only [push_segment, if_pos (Or.inr hev), Frame.push]

theorem C4_draw_filter_witness :
    push_segment ⟨0, 0⟩ 0 (162 / 1000 * 1) false ⟨0, 0⟩ [] 5 5
      = Frame.push [] ⟨5, 0 + 0⟩ (.strokedLine ⟨5 - 5, 0⟩ ⟨0, 0⟩) :=
  (C4_draw_filter ⟨0, 0⟩ 0 1 false ⟨0, 0⟩ [] 5 5).2 rfl

/-- C3: for an evading run, `decorate` behaves exactly as the declarative
segment assembler: append the sentinel points `start - gap_padding` and
`end + gap_padding` to the collision x-coordinates, sort ascending, keep
every adjacent pair `(l, r)` with `r - l ≥ gap_padding` as the candidate
segment `(l + gap_padding, r - gap_padding)`, discard the others, and hand
each candidate to the drawing filter `push_segment`. -/
theorem C3_segment_assembler (frame : Frame) (s : Option Stroke) (o : Option ℚ)
    (ext : ℚ) (text : TextItem) (shift : ℚ) (pos : Point) (cols : List ℚ) :
    (decorate frame ⟨.underline s o true, ext⟩ text shift pos cols
      = (assembledSegments cols (pos.x - ext) (pos.x + (text.width + 2 * ext))
          (8 / 100 * text.size)).foldl
          (fun fr p => push_segment pos
            (o.getD (-(text.metrics.underline.position * text.size)) - shift)
            (162 / 1000 * text.size) true
            (s.getD ⟨text.fill, text.metrics.underline.thickness * text.size⟩)
            fr p.1 p.2) frame) ∧
    (decorate frame ⟨.overline s o true, ext⟩ text shift pos cols
      = (assembledSegments cols (pos.x - ext) (pos.x + (text.width + 2 * ext))
          (8 / 100 * text.size)).foldl
          (fun fr p => push_segment pos
            (o.getD (-(text.metrics.overline.position * text.size)) - shift)
            (162 / 1000 * text.size) true
            (s.getD ⟨text.fill, text.metrics.overline.thickness * text.size⟩)
            fr p.1 p.2) frame) :=
  ⟨emitSegments_eq pos
      (o.getD (-(text.metrics.underline.position * text.size)) - shift)
      (162 / 1000 * text.size) (8 / 100 * text.size) true
      (s.getD ⟨text.fill, text.metrics.underline.thickness * text.size⟩)
      ((cols ++ [pos.x - ext - 8 / 100 * text.size,
        pos.x + (text.width + 2 * ext) + 8 / 100 * text.size]).mergeSort
        (fun a b => decide (a ≤ b))) frame,
   emitSegments_eq pos
      (o.getD (-(text.metrics.overline.position * text.size)) - shift)
      (162 / 1000 * text.size) (8 / 100 * text.size) true
      (s.getD ⟨text.fill, text.metrics.overline.thickness * text.size⟩)
      ((cols ++ [pos.x - ext - 8 / 100 * text.size,
        pos.x + (text.width + 2 * ext) + 8 / 100 * text.size]).mergeSort
        (fun a b => decide (a ≤ b))) frame⟩

theorem decorateLine_append (frame : Frame) (ext : ℚ) (text : TextItem)
    (shift : ℚ) (pos : Point) (cols : List ℚ) (s : Option Stroke)
    (m : LineMetrics) (o : Option ℚ) (ev : Bool) :
    ∃ tl, decorateLine frame ext text shift pos cols s m o ev = frame ++ tl ∧
      ∀ it ∈ tl, ∃ t st, it.shape = Shape.strokedLine t st := by
  cases ev
  · refine ⟨_, decorateLine_nonevade frame ext text shift pos cols s m o, ?_⟩
    intro it hit
    rcases List.mem_singleton.mp hit with rfl
    exact ⟨_, _, rfl⟩
  · refine ⟨_, decorateLine_evade frame ext text shift pos cols s m o, ?_⟩
    intro it hit
    rcases List.mem_map.mp hit with ⟨p, -, rfl⟩
    exact ⟨_, _, rfl⟩

/-- C9: a highlight prepends exactly one filled rectangle of width
`run_width + 2 * extent` and height `top - bottom` to the frame (so it
renders behind the already-emitted run content), while underline, overline
and strikethrough only append stroked line segments; nothing else in the
frame is touched. -/
theorem C9_highlight_behind (frame : Frame) (fill : Paint) (tE bE ext : ℚ)
    (text : TextItem) (shift : ℚ) (pos : Point) (cols : List ℚ)
    (s : Option Stroke) (o : Option ℚ) (e : Bool) :
    (decorate frame ⟨.highlight fill tE bE, ext⟩ text shift pos cols
      = ⟨⟨pos.x - ext, pos.y + (-(get_top_bottom text tE bE).1 - shift)⟩,
          .filledRect ⟨text.width + 2 * ext,
            (get_top_bottom text tE bE).1 - (get_top_bottom text tE bE).2⟩
            fill⟩ :: frame) ∧
    (∃ tl, decorate frame ⟨.underline s o e, ext⟩ text shift pos cols
        = frame ++ tl ∧
      ∀ it ∈ tl, ∃ t st, it.shape = Shape.strokedLine t st) ∧
    (∃ tl, decorate frame ⟨.overline s o e, ext⟩ text shift pos cols
        = frame ++ tl ∧
      ∀ it ∈ tl, ∃ t st, it.shape = Shape.strokedLine t st) ∧
    (∃ tl, decorate frame ⟨.strikethrough s o, ext⟩ text shift pos cols
        = frame ++ tl ∧
      ∀ it ∈ tl, ∃ t st, it.shape = Shape.strokedLine t st) :=
  ⟨rfl,
   decorateLine_append frame ext text shift pos cols s text.metrics.underline o e,
   decorateLine_append frame ext text shift pos cols s text.metrics.overline o e,
   decorateLine_append frame ext text shift pos cols s text.metrics.strikethrough o false⟩

/-- A concrete run for the C9 witness. -/
def textC9 : TextItem := ⟨1, 0, ⟨1000, ⟨0, 0⟩, ⟨0, 0⟩, ⟨0, 0⟩⟩, [], 1⟩

theorem C9_highlight_behind_witness :
    decorate [⟨⟨0, 0⟩, .strokedLine ⟨1, 0⟩ ⟨0, 0⟩⟩]
        ⟨.highlight 5 2 (-1), 0⟩ textC9 0 ⟨0, 0⟩ []
      = ⟨⟨0 - 0, 0 + (-(get_top_bottom textC9 2 (-1)).1 - 0)⟩,
          .filledRect ⟨textC9.width + 2 * 0,
            (get_top_bottom textC9 2 (-1)).1 - (get_top_bottom textC9 2 (-1)).2⟩
            5⟩ :: [⟨⟨0, 0⟩, .strokedLine ⟨1, 0⟩ ⟨0, 0⟩⟩] :=
  (C9_highlight_behind [⟨⟨0, 0⟩, .strokedLine ⟨1, 0⟩ ⟨0, 0⟩⟩] 5 2 (-1) 0
    textC9 0 ⟨0, 0⟩ [] none none false).1

theorem mem_assembled_bounds (cols : List ℚ) (rs re g : ℚ)
    (hbound : ∀ x ∈ cols ++ [rs - g, re + g], rs - g ≤ x ∧ x ≤ re + g) :
    ∀ p ∈ assembledSegments cols rs re g, rs ≤ p.1 ∧ p.2 ≤ re := by
  intro p hp
  simp only [assembledSegments] at hp
  rcases List.mem_map.mp hp with ⟨q, hq, rfl⟩
  have hqw := (List.mem_filter.mp hq).1
  have hw := mem_windowPairs hqw
  have h1 := hbound q.1 (List.mem_mergeSort.mp hw.1)
  have h2 := hbound q.2 (List.mem_mergeSort.mp hw.2)
  constructor
  · have := h1.1
    simp only
    linarith
  · have := h2.2
    simp only
    linarith

theorem pairwise_assembled (cols : List ℚ) (rs re g : ℚ) (hg : 0 ≤ g) :
    (assembledSegments cols rs re g).Pairwise
      (fun p q : ℚ × ℚ => p.2 + g ≤ q.1) := by
  have hsorted := sorted_ratSort (cols ++ [rs - g, re + g])
  have hA := pairwise_windowPairs hsorted
  have hB := hA.filter (fun p : ℚ × ℚ => decide (g ≤ p.2 - p.1))
  simp only [assembledSegments]
  refine List.pairwise_map.mpr (hB.imp ?_)
  intro p q hpq
  simp only
  linarith

theorem decorateLine_bounds (frame : Frame) (ext : ℚ) (text : TextItem)
    (shift : ℚ) (pos : Point) (cols : List ℚ) (s : Option Stroke)
    (m : LineMetrics) (o : Option ℚ)
    (hsz : 0 ≤ text.size) (hext : 0 ≤ ext) (hwd : 0 ≤ text.width)
    (hcols : ∀ c ∈ cols, pos.x ≤ c ∧ c ≤ pos.x + text.width) :
    ∃ tl, decorateLine frame ext text shift pos cols s m o true = frame ++ tl ∧
      ∀ it ∈ tl, pos.x - ext - 8 / 100 * text.size ≤ it.xStart ∧
        it.xEnd ≤ pos.x + text.width + 2 * ext + 8 / 100 * text.size := by
  refine ⟨_, decorateLine_evade frame ext text shift pos cols s m o, ?_⟩
  have hg : (0 : ℚ) ≤ 8 / 100 * text.size := by
    have : (0 : ℚ) ≤ 8 / 100 := by norm_num
    exact mul_nonneg this hsz
  have hbound : ∀ x ∈ cols ++ [pos.x - ext - 8 / 100 * text.size,
      pos.x + (text.width + 2 * ext) + 8 / 100 * text.size],
      pos.x - ext - 8 / 100 * text.size ≤ x ∧
      x ≤ pos.x + (text.width + 2 * ext) + 8 / 100 * text.size := by
    intro x hx
    rcases List.mem_append.mp hx with hx | hx
    · have hc := hcols x hx
      exact ⟨by linarith [hc.1], by linarith [hc.2]⟩
    · rcases List.mem_cons.mp hx with rfl | hx
      · exact ⟨le_refl _, by linarith⟩
      · rcases List.mem_singleton.mp hx with rfl
        exact ⟨by linarith, le_refl _⟩
  have hmain := mem_assembled_bounds cols (pos.x - ext)
    (pos.x + (text.width + 2 * ext)) (8 / 100 * text.size) hbound
  intro it hit
  rcases List.mem_map.mp hit with ⟨p, hpf, rfl⟩
  have hpA := (List.mem_filter.mp hpf).1
  have hb := hmain p hpA
  constructor
  · simp only [segItem, FrameItem.xStart]
    linarith [hb.1]
  · simp only [segItem, FrameItem.xEnd]
    linarith [hb.2]

/-- C2 (amended: the rightmost bound is `run_end + 2 * extent + gap_padding`
rather than `run_end + extent + gap_padding`, and the run is assumed to
have nonnegative size, width and extent): for an evading run, every
emitted segment starts no earlier than `run_start - extent - gap_padding`
and ends no later than `run_end + 2 * extent + gap_padding`, with
`gap_padding = 0.08 * font_size`. -/
theorem C2_sentinel_inclusion (frame : Frame) (s : Option Stroke)
    (o : Option ℚ) (ext : ℚ) (text : TextItem) (shift : ℚ) (pos : Point)
    (cols : List ℚ)
    (hsz : 0 ≤ text.size) (hext : 0 ≤ ext) (hwd : 0 ≤ text.width)
    (hcols : ∀ c ∈ cols, pos.x ≤ c ∧ c ≤ pos.x + text.width) :
    (∃ tl, decorate frame ⟨.underline s o true, ext⟩ text shift pos cols
        = frame ++ tl ∧
      ∀ it ∈ tl, pos.x - ext - 8 / 100 * text.size ≤ it.xStart ∧
        it.xEnd ≤ pos.x + text.width + 2 * ext + 8 / 100 * text.size) ∧
    (∃ tl, decorate frame ⟨.overline s o true, ext⟩ text shift pos cols
        = frame ++ tl ∧
      ∀ it ∈ tl, pos.x - ext - 8 / 100 * text.size ≤ it.xStart ∧
        it.xEnd ≤ pos.x + text.width + 2 * ext + 8 / 100 * text.size) :=
  ⟨decorateLine_bounds frame ext text shift pos cols s text.metrics.underline o
      hsz hext hwd hcols,
   decorateLine_bounds frame ext text shift pos cols s text.metrics.overline o
      hsz hext hwd hcols⟩

/-- A concrete run for the C2 witness. -/
def textC2w : TextItem := ⟨1, 0, ⟨1000, ⟨0, 0⟩, ⟨0, 0⟩, ⟨0, 0⟩⟩, [], 1⟩

theorem C2_sentinel_inclusion_witness :
    ((0 : ℚ) ≤ textC2w.size ∧ (0 : ℚ) ≤ 1 ∧ (0 : ℚ) ≤ textC2w.width) ∧
    (∃ tl, decorate [] ⟨.underline none none true, 1⟩ textC2w 0 ⟨0, 0⟩ []
        = [] ++ tl ∧
      ∀ it ∈ tl, (0 : ℚ) - 1 - 8 / 100 * textC2w.size ≤ it.xStart ∧
        it.xEnd ≤ (0 : ℚ) + textC2w.width + 2 * 1 + 8 / 100 * textC2w.size) :=
  ⟨⟨by norm_num [textC2w], by norm_num, by norm_num [textC2w]⟩,
    (C2_sentinel_inclusion [] none none 1 textC2w 0 ⟨0, 0⟩ []
      (by norm_num [textC2w]) (by norm_num) (by norm_num [textC2w])
      (by intro c hc; cases hc)).1⟩

/-- A concrete run for the C2 counterexample: font size 1, no glyphs,
layout width 1. -/
def textC2 : TextItem := ⟨1, 0, ⟨1000, ⟨0, 0⟩, ⟨0, 0⟩, ⟨0, 0⟩⟩, [], 1⟩

/-- C2 as stated is false: with `pos = (0,0)`, `width = 1`, `extent = 1`
and no collisions, the evading underline emits the single segment
`[-1, 3]`, whose right end `3` exceeds
`run_end + extent + gap_padding = 1 + 1 + 0.08`. -/
theorem C2_sentinel_counterexample :
    decorate [] ⟨.underline none none true, 1⟩ textC2 0 ⟨0, 0⟩ []
      = [⟨⟨-1, 0⟩, .strokedLine ⟨4, 0⟩ ⟨0, 0⟩⟩] ∧
    ¬ ((⟨⟨-1, 0⟩, .strokedLine ⟨4, 0⟩ ⟨0, 0⟩⟩ : FrameItem).xEnd
        ≤ ((0 : ℚ) + 1) + 1 + 8 / 100 * 1) := by
  constructor
  · show decorateLine [] 1 textC2 0 ⟨0, 0⟩ [] none textC2.metrics.underline none true
      = [⟨⟨-1, 0⟩, .strokedLine ⟨4, 0⟩ ⟨0, 0⟩⟩]
    rw [decorateLine_evade]
    have hms : List.mergeSort [-(27/25 : ℚ), 77/25] (fun a b => decide (a ≤ b))
        = [-(27/25 : ℚ), 77/25] :=
      List.mergeSort_of_sorted
        (by norm_num [List.pairwise_cons, decide_eq_true_eq])
    simp only [assembledSegments, textC2, List.nil_append]
    norm_num
    rw [hms]
    simp [windowPairs, segItem]
    norm_num
    norm_num [segItem]
  · simp only [FrameItem.xEnd]
    norm_num

theorem decorateLine_gap (frame : Frame) (ext : ℚ) (text : TextItem)
    (shift : ℚ) (pos : Point) (cols : List ℚ) (s : Option Stroke)
    (m : LineMetrics) (o : Option ℚ) (hsz : 0 < text.size) :
    ∃ tl, decorateLine frame ext text shift pos cols s m o true = frame ++ tl ∧
      (∀ it ∈ tl, it.xStart < it.xEnd) ∧
      tl.Pairwise (fun i j => i.xEnd + 8 / 100 * text.size ≤ j.xStart) := by
  refine ⟨_, decorateLine_evade frame ext text shift pos cols s m o, ?_, ?_⟩
  · intro it hit
    rcases List.mem_map.mp hit with ⟨p, hpf, rfl⟩
    have hlen := of_decide_eq_true (List.mem_filter.mp hpf).2
    have hpos : (0 : ℚ) < 162 / 1000 * text.size := by
      have h : (0 : ℚ) < 162 / 1000 := by norm_num
      exact mul_pos h hsz
    simp only [segItem, FrameItem.xStart, FrameItem.xEnd]
    linarith
  · have hg : (0 : ℚ) ≤ 8 / 100 * text.size := by
      have h : (0 : ℚ) ≤ 8 / 100 := by norm_num
      exact mul_nonneg h (le_of_lt hsz)
    have hP := pairwise_assembled cols (pos.x - ext)
      (pos.x + (text.width + 2 * ext)) (8 / 100 * text.size) hg
    have hPf := hP.filter (fun p : ℚ × ℚ => decide (162 / 1000 * text.size ≤ p.2 - p.1))
    refine List.pairwise_map.mpr (hPf.imp ?_)
    intro p q hpq
    simp only [segItem, FrameItem.xStart, FrameItem.xEnd]
    linarith

/-- C5: for an evading run with positive font size, no two drawn segments
are separated by a horizontal gap smaller than
`gap_padding = 0.08 * font_size` (every later segment starts at least
`gap_padding` after the previous one ends), and no drawn segment is empty
or negative-length. -/
theorem C5_gap_invariant (frame : Frame) (s : Option Stroke) (o : Option ℚ)
    (ext : ℚ) (text : TextItem) (shift : ℚ) (pos : Point) (cols : List ℚ)
    (hsz : 0 < text.size) :
    (∃ tl, decorate frame ⟨.underline s o true, ext⟩ text shift pos cols
        = frame ++ tl ∧
      (∀ it ∈ tl, it.xStart < it.xEnd) ∧
      tl.Pairwise (fun i j => i.xEnd + 8 / 100 * text.size ≤ j.xStart)) ∧
    (∃ tl, decorate frame ⟨.overline s o true, ext⟩ text shift pos cols
        = frame ++ tl ∧
      (∀ it ∈ tl, it.xStart < it.xEnd) ∧
      tl.Pairwise (fun i j => i.xEnd + 8 / 100 * text.size ≤ j.xStart)) :=
  ⟨decorateLine_gap frame ext text shift pos cols s text.metrics.underline o hsz,
   decorateLine_gap frame ext text shift pos cols s text.metrics.overline o hsz⟩

/-- A concrete run for the C5 witness. -/
def textC5 : TextItem := ⟨1, 0, ⟨1000, ⟨0, 0⟩, ⟨0, 0⟩, ⟨0, 0⟩⟩, [], 1⟩

theorem C5_gap_invariant_witness :
    ((0 : ℚ) < textC5.size) ∧
    (∃ tl, decorate [] ⟨.underline none none true, 0⟩ textC5 0 ⟨0, 0⟩ []
        = [] ++ tl ∧
      (∀ it ∈ tl, it.xStart < it.xEnd) ∧
      tl.Pairwise (fun i j => i.xEnd + 8 / 100 * textC5.size ≤ j.xStart)) :=
  ⟨by norm_num [textC5],
    (C5_gap_invariant [] none none 0 textC5 0 ⟨0, 0⟩ [] (by norm_num [textC5])).1⟩

theorem controlPoints_transform (f : Point → Point) (sg : PathSeg) :
    (PathSeg.transform f sg).controlPoints = sg.controlPoints.map f := by
  cases sg <;> rfl

/-- A Bezier segment stays within any y-band that contains all of its
control points (convex-hull property of the Bernstein basis). -/
theorem evalY_bounds (sg : PathSeg) (lo hi : ℝ)
    (h : ∀ p ∈ sg.controlPoints, lo ≤ (p.y : ℝ) ∧ (p.y : ℝ) ≤ hi)
    (t : ℝ) (h0 : 0 ≤ t) (h1 : t ≤ 1) :
    lo ≤ sg.evalY t ∧ sg.evalY t ≤ hi := by
  have ha : (0 : ℝ) ≤ 1 - t := by linarith
  cases sg with
  | line p0 p1 =>
      have hp0 := h p0 (by simp [PathSeg.controlPoints])
      have hp1 := h p1 (by simp [PathSeg.controlPoints])
      simp only [PathSeg.evalY]
      constructor
      · nlinarith [mul_nonneg ha (sub_nonneg.mpr hp0.1),
          mul_nonneg h0 (sub_nonneg.mpr hp1.1)]
      · nlinarith [mul_nonneg ha (sub_nonneg.mpr hp0.2),
          mul_nonneg h0 (sub_nonneg.mpr hp1.2)]
  | quad p0 p1 p2 =>
      have hp0 := h p0 (by simp [PathSeg.controlPoints])
      have hp1 := h p1 (by simp [PathSeg.controlPoints])
      have hp2 := h p2 (by simp [PathSeg.controlPoints])
      have h2t : (0 : ℝ) ≤ 2 * t := by linarith
      simp only [PathSeg.evalY]
      constructor
      · nlinarith [mul_nonneg (mul_nonneg ha ha) (sub_nonneg.mpr hp0.1),
          mul_nonneg (mul_nonneg h2t ha) (sub_nonneg.mpr hp1.1),
          mul_nonneg (mul_nonneg h0 h0) (sub_nonneg.mpr hp2.1)]
      · nlinarith [mul_nonneg (mul_nonneg ha ha) (sub_nonneg.mpr hp0.2),
          mul_nonneg (mul_nonneg h2t ha) (sub_nonneg.mpr hp1.2),
          mul_nonneg (mul_nonneg h0 h0) (sub_nonneg.mpr hp2.2)]
  | cubic p0 p1 p2 p3 =>
      have hp0 := h p0 (by simp [PathSeg.controlPoints])
      have hp1 := h p1 (by simp [PathSeg.controlPoints])
      have hp2 := h p2 (by simp [PathSeg.controlPoints])
      have hp3 := h p3 (by simp [PathSeg.controlPoints])
      have h3t : (0 : ℝ) ≤ 3 * t := by linarith
      constructor
      · have key : PathSeg.evalY (.cubic p0 p1 p2 p3) t - lo
            = (1 - t) ^ 3 * ((p0.y : ℝ) - lo)
              + (3 * t * (1 - t) ^ 2) * ((p1.y : ℝ) - lo)
              + (3 * t ^ 2 * (1 - t)) * ((p2.y : ℝ) - lo)
              + t ^ 3 * ((p3.y : ℝ) - lo) := by
          simp only [PathSeg.evalY]
          ring
        have e0 : (0 : ℝ) ≤ (1 - t) ^ 3 * ((p0.y : ℝ) - lo) :=
          mul_nonneg (pow_nonneg ha 3) (sub_nonneg.mpr hp0.1)
        have e1 : (0 : ℝ) ≤ (3 * t * (1 - t) ^ 2) * ((p1.y : ℝ) - lo) :=
          mul_nonneg (mul_nonneg h3t (pow_nonneg ha 2)) (sub_nonneg.mpr hp1.1)
        have e2 : (0 : ℝ) ≤ (3 * t ^ 2 * (1 - t)) * ((p2.y : ℝ) - lo) :=
          mul_nonneg (mul_nonneg (by positivity) ha) (sub_nonneg.mpr hp2.1)
        have e3 : (0 : ℝ) ≤ t ^ 3 * ((p3.y : ℝ) - lo) :=
          mul_nonneg (pow_nonneg h0 3) (sub_nonneg.mpr hp3.1)
        linarith
      · have key : hi - PathSeg.evalY (.cubic p0 p1 p2 p3) t
            = (1 - t) ^ 3 * (hi - (p0.y : ℝ))
              + (3 * t * (1 - t) ^ 2) * (hi - (p1.y : ℝ))
              + (3 * t ^ 2 * (1 - t)) * (hi - (p2.y : ℝ))
              + t ^ 3 * (hi - (p3.y : ℝ)) := by
          simp only [PathSeg.evalY]
          ring
        have e0 : (0 : ℝ) ≤ (1 - t) ^ 3 * (hi - (p0.y : ℝ)) :=
          mul_nonneg (pow_nonneg ha 3) (sub_nonneg.mpr hp0.2)
        have e1 : (0 : ℝ) ≤ (3 * t * (1 - t) ^ 2) * (hi - (p1.y : ℝ)) :=
          mul_nonneg (mul_nonneg h3t (pow_nonneg ha 2)) (sub_nonneg.mpr hp1.2)
        have e2 : (0 : ℝ) ≤ (3 * t ^ 2 * (1 - t)) * (hi - (p2.y : ℝ)) :=
          mul_nonneg (mul_nonneg (by positivity) ha) (sub_nonneg.mpr hp2.2)
        have e3 : (0 : ℝ) ≤ t ^ 3 * (hi - (p3.y : ℝ)) :=
          mul_nonneg (pow_nonneg h0 3) (sub_nonneg.mpr hp3.2)
        linarith

/-- If the cheap bounding-box test rejects a glyph whose box really bounds
its outline, the glyph contributes no collision point at all. -/
theorem glyphHits_empty_of_reject (upem size dx lineY x0 x1 : ℚ) (g : Glyph)
    (hupem : 0 < upem) (hsz : 0 ≤ size)
    (hsound : g.bboxSoundB = true)
    (hrej : bboxIntersects upem size lineY g = false) :
    glyphHits upem size dx lineY x0 x1 g = ∅ := by
  ext x
  simp only [glyphHits, Set.mem_setOf_eq, Set.mem_empty_iff_false, iff_false]
  rintro ⟨sg, hmem, hhit⟩
  rcases hbb : g.bbox with _ | bb
  · simp only [Glyph.bboxSoundB, hbb] at hsound
    rw [List.isEmpty_iff] at hsound
    rw [hsound] at hmem
    cases hmem
  · simp only [Glyph.bboxSoundB, hbb, List.all_eq_true] at hsound
    simp only [bboxIntersects, hbb, Bool.and_eq_false_iff] at hrej
    obtain ⟨t, ht0, ht1, hy, -⟩ := hhit
    have hcp : ∀ q ∈ (sg.transform (builderPoint upem size dx)).controlPoints,
        ((-(bb.yMax / upem * size) : ℚ) : ℝ) ≤ (q.y : ℝ) ∧
        (q.y : ℝ) ≤ ((-(bb.yMin / upem * size) : ℚ) : ℝ) := by
      rw [controlPoints_transform]
      intro q hq
      rcases List.mem_map.mp hq with ⟨p, hp, rfl⟩
      have hpy := hsound sg hmem p hp
      rw [Bool.and_eq_true, decide_eq_true_eq, decide_eq_true_eq] at hpy
      simp only [builderPoint]
      have hdiv1 : bb.yMin / upem ≤ p.y / upem :=
        div_le_div_of_nonneg_right hpy.1 (le_of_lt hupem)
      have hdiv2 : p.y / upem ≤ bb.yMax / upem :=
        div_le_div_of_nonneg_right hpy.2 (le_of_lt hupem)
      have hmul1 : bb.yMin / upem * size ≤ p.y / upem * size :=
        mul_le_mul_of_nonneg_right hdiv1 hsz
      have hmul2 : p.y / upem * size ≤ bb.yMax / upem * size :=
        mul_le_mul_of_nonneg_right hdiv2 hsz
      constructor
      · have hq1 : -(bb.yMax / upem * size) ≤ -(p.y / upem * size) :=
          neg_le_neg hmul2
        exact_mod_cast hq1
      · have hq2 : -(p.y / upem * size) ≤ -(bb.yMin / upem * size) :=
          neg_le_neg hmul1
        exact_mod_cast hq2
    have hband := evalY_bounds (sg.transform (builderPoint upem size dx))
      (((-(bb.yMax / upem * size) : ℚ) : ℝ)) (((-(bb.yMin / upem * size) : ℚ) : ℝ))
      hcp t ht0 ht1
    rcases hrej with hr | hr
    · rw [decide_eq_false_iff_not, not_le] at hr
      have : ((lineY : ℚ) : ℝ) < ((-(bb.yMax / upem * size) : ℚ) : ℝ) := by
        exact_mod_cast hr
      rw [hy] at hband
      linarith [hband.1]
    · rw [decide_eq_false_iff_not, not_le] at hr
      have : ((-(bb.yMin / upem * size) : ℚ) : ℝ) < ((lineY : ℚ) : ℝ) := by
        exact_mod_cast hr
      rw [hy] at hband
      linarith [hband.2]

theorem collisionScan_cheap_eq (text : TextItem) (offY posX : ℚ)
    (hupem : 0 < text.metrics.unitsPerEm) (hsz : 0 ≤ text.size) :
    ∀ (gs : List Glyph), (∀ g ∈ gs, g.bboxSoundB = true) →
      ∀ x0, collisionScan true text offY posX x0 gs
          = collisionScan false text offY posX x0 gs
  | [], _, _ => rfl
  | g :: gs, hsound, x0 => by
      have hg := hsound g (List.mem_cons_self _ _)
      have ih := collisionScan_cheap_eq text offY posX hupem hsz gs
        (fun g' hg' => hsound g' (List.mem_cons_of_mem _ hg'))
        (x0 + g.xAdvance * text.size)
      by_cases htest :
          bboxIntersects text.metrics.unitsPerEm text.size offY g = true
      · simp only [collisionScan, htest, ih]
        simp
      · rw [Bool.not_eq_true] at htest
        have hempty := glyphHits_empty_of_reject text.metrics.unitsPerEm
          text.size (g.xOffset * text.size + x0) offY posX (posX + text.width)
          g hupem hsz hg htest
        simp only [collisionScan, htest, ih, hempty]
        simp

/-- C7: skipping the per-glyph curve intersection whenever the glyph has no
bounding box, or the decoration line's fixed y lies outside the box's
document-unit y-range, has no geometric effect: provided every glyph's
bounding box really bounds its outline, the collision set produced with
the cheap rejection equals the one obtained by intersecting every glyph's
full outline against the decoration line. -/
theorem C7_cheap_rejection (text : TextItem) (offY posX x0 : ℚ)
    (hupem : 0 < text.metrics.unitsPerEm) (hsz : 0 ≤ text.size)
    (hsound : ∀ g ∈ text.glyphs, g.bboxSoundB = true) :
    collisionScan true text offY posX x0 text.glyphs
      = collisionScan false text offY posX x0 text.glyphs :=
  collisionScan_cheap_eq text offY posX hupem hsz text.glyphs hsound x0

/-- A concrete run for the C7 witness: one glyph whose diagonal outline is
bounded by its box. -/
def textC7 : TextItem :=
  ⟨10, 0, ⟨1000, ⟨0, 0⟩, ⟨0, 0⟩, ⟨0, 0⟩⟩,
    [⟨4, 1, 0, some ⟨0, 700⟩, [.line ⟨0, 0⟩ ⟨700, 700⟩]⟩], 10⟩

theorem C7_cheap_rejection_witness :
    ((0 : ℚ) < textC7.metrics.unitsPerEm ∧ (0 : ℚ) ≤ textC7.size ∧
      ∀ g ∈ textC7.glyphs, g.bboxSoundB = true) ∧
    collisionScan true textC7 1 0 0 textC7.glyphs
      = collisionScan false textC7 1 0 0 textC7.glyphs :=
  ⟨⟨by norm_num [textC7], by norm_num [textC7], by decide⟩,
    C7_cheap_rejection textC7 1 0 0 (by norm_num [textC7])
      (by norm_num [textC7]) (by decide)⟩

end TypstDeco
